import Mathlib

/-!
Verification development for the dominator-analysis view plugin.

The plugin walks a precomputed dominance relation over basic blocks and
builds render graphs (nodes plus directed edges) or Mermaid text diagrams.
Blocks are identified by their start address, modelled as a natural number.
The dominance relation itself is an external input, modelled as a bundle of
read-only accessor functions.  Unbounded `while` loops and unbounded
recursion from the source are embedded as fuel-indexed functions returning
`Option`: `none` means the loop had not finished within the given fuel.
-/

/-- The six per-block dominance accessors plus `outgoing_edges`,
exactly the block attributes the plugin reads.  A block is identified
by its start address (`Nat`). -/
structure DomRel where
  immediate_dominator : Nat → Option Nat
  dominator_tree_children : Nat → List Nat
  dominance_frontier : Nat → List Nat
  immediate_post_dominator : Nat → Option Nat
  post_dominator_tree_children : Nat → List Nat
  post_dominance_frontier : Nat → List Nat
  outgoing_edges : Nat → List Nat

/-- The binary view: only the `get_function_at` lookup is consumed by the
Mermaid export entry points.  A function is its ordered list of basic
blocks (block start addresses). -/
structure BinaryView where
  get_function_at : Nat → Option (List Nat)

/-- Content of a flowgraph node: either the disassembly of a block
(identified by its address) or a literal text line (the placeholder
nodes of the source set `node.lines` to a plain string). -/
inductive NodeContent where
  | block (b : Nat)
  | text (s : String)
deriving DecidableEq, Repr

/-- A `FlowGraph`: nodes in creation (append) order, addressed by index,
plus directed edges between node indices.  All edges of the source use the
same branch type, so the branch type is not modelled. -/
structure FlowGraph where
  nodes : List NodeContent
  edges : List (Nat × Nat)
deriving DecidableEq, Repr

def emptyFlowGraph : FlowGraph := FlowGraph.mk [] []

/-- `DominanceSliceBase.get_block_node`: creates a fresh `FlowGraphNode`,
sets its lines (the block's disassembly, or the literal line
"No block found" when no block is given), appends it to the flowgraph and
returns it.  The returned `Nat` is the index of the freshly appended node. -/
def get_block_node (g : FlowGraph) (block : Option Nat) : FlowGraph × Nat :=
  match block with
  | some b => (FlowGraph.mk (g.nodes ++ [NodeContent.block b]) g.edges, g.nodes.length)
  | none =>
      (FlowGraph.mk (g.nodes ++ [NodeContent.text ("No block found")]) g.edges, g.nodes.length)

/-- `node.add_outgoing_edge(BranchType.UnconditionalBranch, target)`:
records the directed edge `src → dst` (no deduplication). -/
def add_outgoing_edge (g : FlowGraph) (src dst : Nat) : FlowGraph :=
  FlowGraph.mk g.nodes (g.edges ++ [(src, dst)])

/-- `node.lines = [...]` overwrite used by the strict-dominators slice on
its placeholder node. -/
def set_node_lines (g : FlowGraph) (n : Nat) (s : String) : FlowGraph :=
  FlowGraph.mk (g.nodes.set n (NodeContent.text s)) g.edges

/-! ## Chain-walk slices -/

/-- The `while next_block is not None` loop of `DominatorsSlice.get_flowgraph`
(also reused verbatim by the strict-dominators slice): create a node for the
next block, add an edge from that node to the previous node
(ancestor → dominated), continue from its `immediate_dominator`.
Fuel-indexed; `none` means the loop did not finish within `fuel` steps. -/
def domWalkLoop (rel : DomRel) : Nat → FlowGraph → Nat → Option Nat → Option FlowGraph
  | _, g, _, none => some g
  | 0, _, _, some _ => none
  | fuel+1, g, current_node, some next_block =>
      let p := get_block_node g (some next_block)
      domWalkLoop rel fuel (add_outgoing_edge p.1 p.2 current_node) p.2
        (rel.immediate_dominator next_block)

/-- `DominatorsSlice.get_flowgraph`: node for the current block, then the
dominator chain walked upward via `immediate_dominator`. -/
def DominatorsSlice_get_flowgraph (rel : DomRel) (current_block : Option Nat)
    (fuel : Nat) : Option FlowGraph :=
  match current_block with
  | none => some emptyFlowGraph
  | some b =>
      let p := get_block_node emptyFlowGraph (some b)
      domWalkLoop rel fuel p.1 p.2 (rel.immediate_dominator b)

/-- The `while` loop of `PostDominatorsSlice.get_flowgraph`: same walk on
`immediate_post_dominator`, but the edge goes previous node → next node. -/
def postDomWalkLoop (rel : DomRel) : Nat → FlowGraph → Nat → Option Nat → Option FlowGraph
  | _, g, _, none => some g
  | 0, _, _, some _ => none
  | fuel+1, g, current_node, some next_block =>
      let p := get_block_node g (some next_block)
      postDomWalkLoop rel fuel (add_outgoing_edge p.1 current_node p.2) p.2
        (rel.immediate_post_dominator next_block)

/-- `PostDominatorsSlice.get_flowgraph`. -/
def PostDominatorsSlice_get_flowgraph (rel : DomRel) (current_block : Option Nat)
    (fuel : Nat) : Option FlowGraph :=
  match current_block with
  | none => some emptyFlowGraph
  | some b =>
      let p := get_block_node emptyFlowGraph (some b)
      postDomWalkLoop rel fuel p.1 p.2 (rel.immediate_post_dominator b)

/-- `StrictDominatorsSlice.get_flowgraph`: skip the current block; if its
`immediate_dominator` is already `None`, emit one placeholder node whose
lines are overwritten with "No strict dominators"; otherwise start the
chain at the immediate dominator and walk upward as in `DominatorsSlice`. -/
def StrictDominatorsSlice_get_flowgraph (rel : DomRel) (current_block : Option Nat)
    (fuel : Nat) : Option FlowGraph :=
  match current_block with
  | none => some emptyFlowGraph
  | some b =>
      match rel.immediate_dominator b with
      | none =>
          let p := get_block_node emptyFlowGraph none
          some (set_node_lines p.1 p.2 ("No strict dominators"))
      | some d =>
          let p := get_block_node emptyFlowGraph (some d)
          domWalkLoop rel fuel p.1 p.2 (rel.immediate_dominator d)

/-! ## Immediate-neighbor slices -/

/-- `ImmediateDominatorSlice.get_flowgraph`. -/
def ImmediateDominatorSlice_get_flowgraph (rel : DomRel)
    (current_block : Option Nat) : FlowGraph :=
  match current_block with
  | none => emptyFlowGraph
  | some b =>
      let p := get_block_node emptyFlowGraph (some b)
      match rel.immediate_dominator b with
      | none => p.1
      | some d =>
          let q := get_block_node p.1 (some d)
          add_outgoing_edge q.1 q.2 p.2

/-- `ImmediatePostDominatorSlice.get_flowgraph`. -/
def ImmediatePostDominatorSlice_get_flowgraph (rel : DomRel)
    (current_block : Option Nat) : FlowGraph :=
  match current_block with
  | none => emptyFlowGraph
  | some b =>
      let p := get_block_node emptyFlowGraph (some b)
      match rel.immediate_post_dominator b with
      | none => p.1
      | some d =>
          let q := get_block_node p.1 (some d)
          add_outgoing_edge q.1 p.2 q.2

/-- Common body of the one-hop neighbor/frontier slices: current block's
node plus one node and one edge (current → member) per member. -/
def one_hop_flowgraph (members : Nat → List Nat) (current_block : Option Nat) : FlowGraph :=
  match current_block with
  | none => emptyFlowGraph
  | some b =>
      let p := get_block_node emptyFlowGraph (some b)
      (members b).foldl
        (fun g m =>
          let q := get_block_node g (some m)
          add_outgoing_edge q.1 p.2 q.2) p.1

/-- `DominanceFrontierSlice.get_flowgraph`. -/
def DominanceFrontierSlice_get_flowgraph (rel : DomRel) (current_block : Option Nat) : FlowGraph :=
  one_hop_flowgraph rel.dominance_frontier current_block

/-- `PostDominanceFrontierSlice.get_flowgraph`. -/
def PostDominanceFrontierSlice_get_flowgraph (rel : DomRel)
    (current_block : Option Nat) : FlowGraph :=
  one_hop_flowgraph rel.post_dominance_frontier current_block

/-- `DominatorTreeChildrenSlice.get_flowgraph`. -/
def DominatorTreeChildrenSlice_get_flowgraph (rel : DomRel)
    (current_block : Option Nat) : FlowGraph :=
  one_hop_flowgraph rel.dominator_tree_children current_block

/-- `PostDominatorTreeChildrenSlice.get_flowgraph`. -/
def PostDominatorTreeChildrenSlice_get_flowgraph (rel : DomRel)
    (current_block : Option Nat) : FlowGraph :=
  one_hop_flowgraph rel.post_dominator_tree_children current_block

/-! ## Full-tree slices -/

/-- The recursive `add_children(block, parent_node)` closure of the
full-tree slices, fused with its `for child in children:` loop: for each
child create a node, add edge parent → child, then recurse into the child's
own children before continuing with the remaining siblings.  Fuel-indexed
(the source recursion is unbounded); `none` means fuel ran out. -/
def add_children_list (ch : Nat → List Nat) : Nat → List Nat → Nat → FlowGraph → Option FlowGraph
  | _, [], _, g => some g
  | 0, _ :: _, _, _ => none
  | fuel+1, c :: cs, parent_node, g =>
      let p := get_block_node g (some c)
      match add_children_list ch fuel (ch c) p.2 (add_outgoing_edge p.1 parent_node p.2) with
      | none => none
      | some g1 => add_children_list ch fuel cs parent_node g1

/-- `add_children(block, parent_node)` itself. -/
def add_children (ch : Nat → List Nat) (fuel : Nat) (block : Nat) (parent_node : Nat)
    (g : FlowGraph) : Option FlowGraph :=
  add_children_list ch fuel (ch block) parent_node g

/-- `FullDominatorTreeSlice.get_flowgraph`: empty graph when there is no
current function or it has zero blocks; otherwise root at
`function.basic_blocks[0]` and recurse over `dominator_tree_children`. -/
def FullDominatorTreeSlice_get_flowgraph (rel : DomRel) (function : Option (List Nat))
    (fuel : Nat) : Option FlowGraph :=
  match function with
  | none => some emptyFlowGraph
  | some [] => some emptyFlowGraph
  | some (root_block :: _) =>
      let p := get_block_node emptyFlowGraph (some root_block)
      add_children rel.dominator_tree_children fuel root_block p.2 p.1

/-- `FullPostDominatorTreeSlice.get_flowgraph`: collect the exit blocks
(blocks with no outgoing edges); empty graph when there is none; otherwise
root at the first exit block and recurse over
`post_dominator_tree_children`. -/
def FullPostDominatorTreeSlice_get_flowgraph (rel : DomRel) (function : Option (List Nat))
    (fuel : Nat) : Option FlowGraph :=
  match function with
  | none => some emptyFlowGraph
  | some blocks =>
      let exit_blocks := blocks.filter (fun b => (rel.outgoing_edges b).isEmpty)
      match exit_blocks with
      | [] => some emptyFlowGraph
      | root_block :: _ =>
          let p := get_block_node emptyFlowGraph (some root_block)
          add_children rel.post_dominator_tree_children fuel root_block p.2 p.1

/-! ## Iterated dominance frontier (worklist fixed point) -/

/-- The inner `for df_block in block.dominance_frontier:` loop of the
worklist computation: every frontier member not already in `frontier` is
inserted into `frontier` and appended to the (FIFO) `worklist`. -/
def df_loop : List Nat → List Nat → List Nat → List Nat × List Nat
  | [], frontier, worklist => (frontier, worklist)
  | d :: ds, frontier, worklist =>
      if d ∈ frontier then df_loop ds frontier worklist
      else df_loop ds (frontier ++ [d]) (worklist ++ [d])

/-- The `while worklist:` loop: pop the front block, process its
dominance frontier, repeat.  `none` means the loop had not finished within
`fuel` iterations (one fuel unit per popped block). -/
def idfAux (df : Nat → List Nat) : Nat → List Nat → List Nat → Option (List Nat)
  | _, frontier, [] => some frontier
  | 0, _, _ :: _ => none
  | fuel+1, frontier, block :: rest =>
      let p := df_loop (df block) frontier rest
      idfAux df fuel p.1 p.2

/-- The whole worklist computation (`frontier = set()`,
`worklist = list(blocks)`, then the `while` loop), shared by
`IteratedDominanceFrontierSlice.get_flowgraph` and
`generate_iterated_dominance_frontier_mermaid`. -/
def idfCompute (df : Nat → List Nat) (seeds : List Nat) (fuel : Nat) : Option (List Nat) :=
  idfAux df fuel [] seeds

/-- `IteratedDominanceFrontierSlice.get_flowgraph`: current block's node,
the worklist fixed point seeded with the current block, then one edge from
the current block to every frontier member. -/
def IteratedDominanceFrontierSlice_get_flowgraph (rel : DomRel)
    (current_block : Option Nat) (fuel : Nat) : Option FlowGraph :=
  match current_block with
  | none => some emptyFlowGraph
  | some b =>
      let p := get_block_node emptyFlowGraph (some b)
      match idfCompute rel.dominance_frontier [b] fuel with
      | none => none
      | some frontier =>
          some (frontier.foldl
            (fun g fb =>
              let q := get_block_node g (some fb)
              add_outgoing_edge q.1 p.2 q.2) p.1)

/-! ## Mermaid diagram export -/

/-- Python's `hex(n)`: `0x` followed by lowercase hex digits. -/
def pyHex (n : Nat) : String :=
  "0x" ++ (Nat.toDigits 16 n).asString

/-- Concatenation of the per-iteration `mermaid_syntax += ...` contributions
of one source loop. -/
def str_concat (l : List String) : String :=
  l.foldr (fun a b => a ++ b) ""

/-- One node declaration statement: `BB<hex>((<hex>))`. -/
def mermaid_node_decl (bb : Nat) : String :=
  "BB" ++ pyHex bb ++ "((" ++ pyHex bb ++ "))\n"

/-- The `for bb in func.basic_blocks:` node-declaration loop. -/
def mermaid_decls (bbs : List Nat) : String :=
  str_concat (bbs.map mermaid_node_decl)

/-- `generate_dominator_mermaid`: per block, its declaration followed by one
edge per dominator-tree child; the whole diagram is wrapped in a
```` ```mermaid ```` fence.  When no function exists at the address,
`mermaid_syntax` is replaced by the diagnostic line, which is still
returned inside the fence. -/
def generate_dominator_mermaid (rel : DomRel) (bv : BinaryView)
    (function_address : Nat) : String :=
  match bv.get_function_at function_address with
  | some func =>
      "```mermaid\n" ++ ("graph TD;\n" ++ str_concat (func.map (fun bb =>
        mermaid_node_decl bb ++ str_concat ((rel.dominator_tree_children bb).map (fun c =>
          "BB" ++ pyHex bb ++ " --> BB" ++ pyHex c ++ "\n"))))) ++ "\n```"
  | none =>
      "```mermaid\n" ++ ("No function found at address " ++ pyHex function_address) ++ "\n```"

/-- `generate_post_dominator_mermaid`. -/
def generate_post_dominator_mermaid (rel : DomRel) (bv : BinaryView)
    (function_address : Nat) : String :=
  match bv.get_function_at function_address with
  | some func =>
      "```mermaid\n" ++ ("graph TD;\n" ++ str_concat (func.map (fun bb =>
        mermaid_node_decl bb ++ str_concat ((rel.post_dominator_tree_children bb).map (fun c =>
          "BB" ++ pyHex bb ++ " --> BB" ++ pyHex c ++ "\n"))))) ++ "\n```"
  | none =>
      "```mermaid\n" ++ ("No function found at address " ++ pyHex function_address) ++ "\n```"

/-- `generate_dominance_frontier_mermaid`: all declarations first, then the
labeled `-->|frontier|` edges. -/
def generate_dominance_frontier_mermaid (rel : DomRel) (bv : BinaryView)
    (function_address : Nat) : String :=
  match bv.get_function_at function_address with
  | some func =>
      "```mermaid\n" ++ ("graph TD;\n" ++ mermaid_decls func ++
        str_concat (func.map (fun bb =>
          str_concat ((rel.dominance_frontier bb).map (fun f =>
            "BB" ++ pyHex bb ++ " -->|frontier| BB" ++ pyHex f ++ "\n"))))) ++ "\n```"
  | none =>
      "```mermaid\n" ++ ("No function found at address " ++ pyHex function_address) ++ "\n```"

/-- `generate_post_dominance_frontier_mermaid`. -/
def generate_post_dominance_frontier_mermaid (rel : DomRel) (bv : BinaryView)
    (function_address : Nat) : String :=
  match bv.get_function_at function_address with
  | some func =>
      "```mermaid\n" ++ ("graph TD;\n" ++ mermaid_decls func ++
        str_concat (func.map (fun bb =>
          str_concat ((rel.post_dominance_frontier bb).map (fun f =>
            "BB" ++ pyHex bb ++ " -->|post frontier| BB" ++ pyHex f ++ "\n"))))) ++ "\n```"
  | none =>
      "```mermaid\n" ++ ("No function found at address " ++ pyHex function_address) ++ "\n```"

/-- The `for bb in func.basic_blocks: if bb.start == addr: blocks.add(bb)`
seed lookup of the iterated-frontier export: the first block whose start
equals the requested address. -/
def find_block (func : List Nat) (addr : Nat) : Option Nat :=
  func.find? (fun bb => bb = addr)

/-- `generate_iterated_dominance_frontier_mermaid`: declarations, then
(unless the seed list ends up empty) the worklist fixed point over the
collected seed blocks, a style statement per seed block, and per
seed × frontier-member one labeled `-->|IDF|` edge followed by a style
statement for the frontier member (duplicates tolerated).  `none` means
the worklist loop ran out of fuel. -/
def generate_iterated_dominance_frontier_mermaid (rel : DomRel) (bv : BinaryView)
    (function_address : Nat) (variable_blocks : Option (List Nat))
    (fuel : Nat) : Option String :=
  match bv.get_function_at function_address with
  | none =>
      some ("```mermaid\n" ++ ("No function found at address " ++ pyHex function_address)
        ++ "\n```")
  | some func =>
      let decls := mermaid_decls func
      let vb : Option (List Nat) :=
        match variable_blocks, func with
        | none, f0 :: _ => some [f0]
        | none, [] => none
        | some l, _ => some l
      match vb with
      | none => some ("```mermaid\n" ++ ("graph TD;\n" ++ decls) ++ "\n```")
      | some [] => some ("```mermaid\n" ++ ("graph TD;\n" ++ decls) ++ "\n```")
      | some vbl =>
          let blocks := (vbl.filterMap (find_block func)).eraseDups
          match idfCompute rel.dominance_frontier blocks fuel with
          | none => none
          | some frontier =>
              let seed_styles := str_concat (blocks.map (fun b =>
                "style BB" ++ pyHex b ++ " fill:#afa,stroke:#6a6\n"))
              let idf_edges := str_concat (blocks.map (fun b =>
                str_concat (frontier.map (fun fb =>
                  "BB" ++ pyHex b ++ " -->|IDF| BB" ++ pyHex fb ++ "\n" ++
                  "style BB" ++ pyHex fb ++ " fill:#faa,stroke:#a66\n"))))
              some ("```mermaid\n" ++ ("graph TD;\n" ++ decls ++ seed_styles ++ idf_edges)
                ++ "\n```")

/-- One `-->|idom|` edge statement (dominator → dominated). -/
def idom_edge_stmt (e : Nat × Nat) : String :=
  "BB" ++ pyHex e.1 ++ " -->|idom| BB" ++ pyHex e.2 ++ "\n"

/-- One `-->|ipdom|` edge statement (block → its post-dominator). -/
def ipdom_edge_stmt (e : Nat × Nat) : String :=
  "BB" ++ pyHex e.1 ++ " -->|ipdom| BB" ++ pyHex e.2 ++ "\n"

/-- The (source, target) pairs of the edges emitted by
`generate_immediate_dominator_mermaid`: one edge
`immediate_dominator → block` per block whose immediate dominator exists
and differs from the block itself. -/
def idom_edge_pairs (rel : DomRel) (bbs : List Nat) : List (Nat × Nat) :=
  bbs.filterMap (fun bb =>
    match rel.immediate_dominator bb with
    | some d => if d = bb then none else some (d, bb)
    | none => none)

/-- The (source, target) pairs of the edges emitted by
`generate_immediate_post_dominator_mermaid`: one edge
`block → immediate_post_dominator` per block whose immediate
post-dominator exists and differs from the block itself. -/
def ipdom_edge_pairs (rel : DomRel) (bbs : List Nat) : List (Nat × Nat) :=
  bbs.filterMap (fun bb =>
    match rel.immediate_post_dominator bb with
    | some d => if d = bb then none else some (bb, d)
    | none => none)

/-- `generate_immediate_dominator_mermaid`: declarations, then per block an
`idom` edge guarded by `bb.immediate_dominator is not None and
bb.immediate_dominator != bb`. -/
def generate_immediate_dominator_mermaid (rel : DomRel) (bv : BinaryView)
    (function_address : Nat) : String :=
  match bv.get_function_at function_address with
  | some func =>
      "```mermaid\n" ++ ("graph TD;\n" ++ mermaid_decls func ++
        str_concat (func.map (fun bb =>
          match rel.immediate_dominator bb with
          | some d => if d = bb then "" else idom_edge_stmt (d, bb)
          | none => ""))) ++ "\n```"
  | none =>
      "```mermaid\n" ++ ("No function found at address " ++ pyHex function_address) ++ "\n```"

/-- `generate_immediate_post_dominator_mermaid`: declarations, then per
block an `ipdom` edge guarded by `bb.immediate_post_dominator is not None
and bb.immediate_post_dominator != bb`. -/
def generate_immediate_post_dominator_mermaid (rel : DomRel) (bv : BinaryView)
    (function_address : Nat) : String :=
  match bv.get_function_at function_address with
  | some func =>
      "```mermaid\n" ++ ("graph TD;\n" ++ mermaid_decls func ++
        str_concat (func.map (fun bb =>
          match rel.immediate_post_dominator bb with
          | some d => if d = bb then "" else ipdom_edge_stmt (bb, d)
          | none => ""))) ++ "\n```"
  | none =>
      "```mermaid\n" ++ ("No function found at address " ++ pyHex function_address) ++ "\n```"

/-! ## Reachability along a children relation -/

/-- `Reaches ch a x`: block `x` is in the subtree of `a` under the
children relation `ch` (reflexive-transitive closure of membership in a
block's children list). -/
inductive Reaches (ch : Nat → List Nat) : Nat → Nat → Prop
  | refl (b : Nat) : Reaches ch b b
  | tail {b y x : Nat} : Reaches ch b y → x ∈ ch y → Reaches ch b x

/-- The list of strict ancestors of `b` reached by repeatedly following
`immediate_dominator`, truncated at `fuel` steps. -/
def idomChain (rel : DomRel) : Nat → Nat → List Nat
  | 0, _ => []
  | fuel+1, b =>
      match rel.immediate_dominator b with
      | none => []
      | some a => a :: idomChain rel fuel a

/-- `IsIdomChain rel b l`: `l` is exactly the full ancestor chain of `b`:
successive immediate dominators, ending where `immediate_dominator` is
`none`. -/
def IsIdomChain (rel : DomRel) : Nat → List Nat → Prop
  | b, [] => rel.immediate_dominator b = none
  | b, a :: rest => rel.immediate_dominator b = some a ∧ IsIdomChain rel a rest

/-- The edges the chain walk appends when the previous node has index
`cn`: each ancestor's node points at the node created just before it. -/
def chainEdges : Nat → List Nat → List (Nat × Nat)
  | _, [] => []
  | cn, _ :: rest => (cn + 1, cn) :: chainEdges (cn + 1) rest

/-- Divergence of the dominator-chain view on a given block: the walk
fails to finish for every fuel bound. -/
def chain_walk_diverges (rel : DomRel) (b : Nat) : Prop :=
  ∀ fuel, DominatorsSlice_get_flowgraph rel (some b) fuel = none

/-! ## Concrete fixtures used by witnesses and counterexamples -/

/-- A relation where every accessor is empty. -/
def trivialRel : DomRel :=
  ⟨fun _ => none, fun _ => [], fun _ => [], fun _ => none, fun _ => [], fun _ => [],
    fun _ => []⟩

/-- A binary view with no function at any address. -/
def noFuncBV : BinaryView := ⟨fun _ => none⟩

/-- A binary view with one two-block function at every address. -/
def bvW : BinaryView := ⟨fun _ => some [0, 1]⟩

/-- A two-block relation: block 0's immediate dominator is block 1. -/
def relW : DomRel :=
  ⟨fun b => if b = 0 then some 1 else none, fun _ => [], fun _ => [], fun _ => none,
    fun _ => [], fun _ => [], fun _ => []⟩

/-- A malformed relation with a self-loop on block 0 in
`immediate_dominator`, `immediate_post_dominator` and
`dominator_tree_children`. -/
def cycRel : DomRel :=
  ⟨fun _ => some 0, fun _ => [0], fun _ => [], fun _ => some 0, fun _ => [],
    fun _ => [], fun _ => []⟩

/-- A three-block dominator forest: block 0 has children 1 and 2. -/
def rel6W : DomRel :=
  ⟨fun _ => none, fun b => if b = 0 then [1, 2] else [], fun _ => [], fun _ => none,
    fun _ => [], fun _ => [], fun _ => []⟩

/-- Depth function for `rel6W`'s dominator forest. -/
def depth6W : Nat → Nat := fun b => if b = 0 then 0 else 1

/-- The flowgraph the full-dominator-tree slice builds for `rel6W` on
blocks `[0, 1, 2]`. -/
def fg6W : FlowGraph :=
  FlowGraph.mk [NodeContent.block 0, NodeContent.block 1, NodeContent.block 2]
    [(0, 1), (0, 2)]

/-- A dominance-frontier map: blocks 0 and 1 both have frontier `{1}`. -/
def dfW1 : Nat → List Nat := fun b => if b ≤ 1 then [1] else []

theorem Reaches.trans {ch : Nat → List Nat} {a b c : Nat}
    (h1 : Reaches ch a b) (h2 : Reaches ch b c) : Reaches ch a c := by
  induction h2 with
  | refl => exact h1
  | tail _ hmem ih => exact Reaches.tail ih hmem

theorem reaches_of_child {ch : Nat → List Nat} {b c : Nat} (h : c ∈ ch b) :
    Reaches ch b c :=
  Reaches.tail (Reaches.refl b) h

theorem reaches_head {ch : Nat → List Nat} {b c x : Nat} (hc : c ∈ ch b)
    (hr : Reaches ch c x) : Reaches ch b x :=
  Reaches.trans (reaches_of_child hc) hr

/-- First-step decomposition of reachability. -/
theorem reaches_head_cases {ch : Nat → List Nat} {b x : Nat} (h : Reaches ch b x) :
    b = x ∨ ∃ c, c ∈ ch b ∧ Reaches ch c x := by
  induction h with
  | refl => exact Or.inl rfl
  | tail hr hmem ih =>
      rcases ih with heq | ⟨c, hc, hcx⟩
      · subst heq
        exact Or.inr ⟨_, hmem, Reaches.refl _⟩
      · exact Or.inr ⟨c, hc, Reaches.tail hcx hmem⟩

/-- A depth function that increases by one along each child edge bounds
reachability from below. -/
theorem reaches_depth_le {ch : Nat → List Nat} (depth : Nat → Nat)
    (hd : ∀ b c, c ∈ ch b → depth c = depth b + 1) {a x : Nat}
    (h : Reaches ch a x) : depth a ≤ depth x := by
  induction h with
  | refl => exact Nat.le_refl _
  | tail _ hmem ih => exact Nat.le_trans ih (by rw [hd _ _ hmem]; omega)

/-- A child never reaches back to its parent when a depth function exists. -/
theorem not_reaches_back {ch : Nat → List Nat} (depth : Nat → Nat)
    (hd : ∀ b c, c ∈ ch b → depth c = depth b + 1) {b c : Nat}
    (hc : c ∈ ch b) : ¬ Reaches ch c b := by
  intro h
  have h1 := reaches_depth_le depth hd h
  have h2 := hd _ _ hc
  omega

/-- With unique parents, any two blocks reaching a common block are
comparable (one reaches the other). -/
theorem reaches_comparable {ch : Nat → List Nat}
    (huniq : ∀ b1 b2 c, c ∈ ch b1 → c ∈ ch b2 → b1 = b2) {a x : Nat}
    (h1 : Reaches ch a x) : ∀ b, Reaches ch b x → Reaches ch a b ∨ Reaches ch b a := by
  induction h1 with
  | refl => exact fun b hb => Or.inr hb
  | tail hay hmem ih =>
      intro b hbx
      cases hbx with
      | refl => exact Or.inl (Reaches.tail hay hmem)
      | tail hby hmem' =>
          have := huniq _ _ _ hmem hmem'
          subst this
          exact ih b hby

/-- Subtrees of two distinct children of the same parent are disjoint
(well-formed forest: unique parents, depth function). -/
theorem subtree_disjoint {ch : Nat → List Nat}
    (huniq : ∀ b1 b2 c, c ∈ ch b1 → c ∈ ch b2 → b1 = b2)
    (depth : Nat → Nat) (hd : ∀ b c, c ∈ ch b → depth c = depth b + 1)
    {b c1 c2 x : Nat} (h1 : c1 ∈ ch b) (h2 : c2 ∈ ch b) (hne : c1 ≠ c2)
    (r1 : Reaches ch c1 x) (r2 : Reaches ch c2 x) : False := by
  rcases reaches_comparable huniq r1 c2 r2 with h | h
  · cases h with
    | refl => exact hne rfl
    | tail hr hmem =>
        have := huniq _ _ _ hmem h2
        subst this
        exact not_reaches_back depth hd h1 hr
  · cases h with
    | refl => exact hne rfl
    | tail hr hmem =>
        have := huniq _ _ _ hmem h1
        subst this
        exact not_reaches_back depth hd h2 hr

/-! ## The dominator chain -/

theorem chainEdges_length (cn : Nat) (l : List Nat) :
    (chainEdges cn l).length = l.length := by
  induction l generalizing cn with
  | nil => rfl
  | cons a rest ih => simp [chainEdges, ih]

theorem idomChain_none {rel : DomRel} {b : Nat} (h : rel.immediate_dominator b = none)
    (fuel : Nat) : idomChain rel fuel b = [] := by
  cases fuel with
  | zero => rfl
  | succ n => simp [idomChain, h]

/-- Specification of the dominator chain-walk loop: starting from a graph
whose last node (index `cn`) represents block `b`, a successful walk
appends exactly the ancestor chain of `b` as nodes, appends one edge per
ancestor, each ancestor's node pointing at the node it immediately
dominates, and the resulting chain is the complete ancestor chain. -/
theorem domWalkLoop_spec (rel : DomRel) :
    ∀ (fuel : Nat) (b : Nat) (g : FlowGraph) (cn : Nat) (g' : FlowGraph),
    cn + 1 = g.nodes.length →
    g.nodes.get? cn = some (NodeContent.block b) →
    domWalkLoop rel fuel g cn (rel.immediate_dominator b) = some g' →
    g'.nodes = g.nodes ++ (idomChain rel fuel b).map NodeContent.block ∧
    g'.edges = g.edges ++ chainEdges cn (idomChain rel fuel b) ∧
    IsIdomChain rel b (idomChain rel fuel b) ∧
    ∀ p ∈ chainEdges cn (idomChain rel fuel b), ∃ u v,
      g'.nodes.get? p.1 = some (NodeContent.block u) ∧
      g'.nodes.get? p.2 = some (NodeContent.block v) ∧
      rel.immediate_dominator v = some u := by
  intro fuel
  induction fuel with
  | zero =>
      intro b g cn g' hlen hget hw
      cases hidom : rel.immediate_dominator b with
      | none =>
          rw [hidom] at hw
          simp only [domWalkLoop] at hw
          cases hw
          refine ⟨by simp [idomChain], by simp [idomChain, chainEdges], ?_, ?_⟩
          · simp [idomChain, IsIdomChain, hidom]
          · simp [idomChain, chainEdges]
      | some a =>
          rw [hidom] at hw
          simp only [domWalkLoop] at hw
          exact Option.noConfusion hw
  | succ fuel ih =>
      intro b g cn g' hlen hget hw
      cases hidom : rel.immediate_dominator b with
      | none =>
          rw [hidom] at hw
          simp only [domWalkLoop] at hw
          cases hw
          refine ⟨by simp [idomChain, hidom], by simp [idomChain, hidom, chainEdges], ?_, ?_⟩
          · simp [idomChain, IsIdomChain, hidom]
          · simp [idomChain, hidom, chainEdges]
      | some a =>
          rw [hidom] at hw
          simp only [domWalkLoop, get_block_node, add_outgoing_edge] at hw
          set g2 : FlowGraph :=
            FlowGraph.mk (g.nodes ++ [NodeContent.block a]) (g.edges ++ [(g.nodes.length, cn)])
            with hg2
          have hlen2 : (cn + 1) + 1 = g2.nodes.length := by
            simp [hg2]
            omega
          have hget2 : g2.nodes.get? (cn + 1) = some (NodeContent.block a) := by
            simp only [hg2]
            rw [hlen]
            exact List.get?_concat_length g.nodes (NodeContent.block a)
          have hw2 : domWalkLoop rel fuel g2 (cn + 1) (rel.immediate_dominator a) = some g' := by
            have hcn : g.nodes.length = cn + 1 := hlen.symm
            simpa [hg2, hcn] using hw
          obtain ⟨hn, he, hc, hdir⟩ := ih a g2 (cn + 1) g' hlen2 hget2 hw2
          have hchain : idomChain rel (fuel + 1) b = a :: idomChain rel fuel a := by
            simp [idomChain, hidom]
          refine ⟨?_, ?_, ?_, ?_⟩
          · rw [hchain]
            simp only [hg2] at hn
            simp [hn]
          · rw [hchain]
            simp only [chainEdges]
            simp only [hg2] at he
            rw [he]
            have hcn : g.nodes.length = cn + 1 := hlen.symm
            simp [hcn]
          · rw [hchain]
            exact ⟨hidom, hc⟩
          · rw [hchain]
            simp only [chainEdges]
            intro p hp
            rcases List.mem_cons.mp hp with hp | hp
            · subst hp
              refine ⟨a, b, ?_, ?_, hidom⟩
              · have : g'.nodes.get? (cn + 1) = some (NodeContent.block a) := by
                  rw [hn]
                  rw [List.get?_append]
                  · exact hget2
                  · omega
                simpa using this
              · have : g'.nodes.get? cn = some (NodeContent.block b) := by
                  rw [hn]
                  rw [List.get?_append]
                  · simp only [hg2]
                    rw [List.get?_append]
                    · exact hget
                    · omega
                  · omega
                simpa using this
            · exact hdir p hp

/-- Specification of `DominatorsSlice.get_flowgraph` in terms of the
ancestor chain. -/
theorem dominators_slice_spec (rel : DomRel) (B : Nat) (fuel : Nat) (g : FlowGraph)
    (h : DominatorsSlice_get_flowgraph rel (some B) fuel = some g) :
    g.nodes = NodeContent.block B :: (idomChain rel fuel B).map NodeContent.block ∧
    g.edges = chainEdges 0 (idomChain rel fuel B) ∧
    IsIdomChain rel B (idomChain rel fuel B) ∧
    ∀ p ∈ g.edges, ∃ u v,
      g.nodes.get? p.1 = some (NodeContent.block u) ∧
      g.nodes.get? p.2 = some (NodeContent.block v) ∧
      rel.immediate_dominator v = some u := by
  simp only [DominatorsSlice_get_flowgraph, get_block_node, emptyFlowGraph] at h
  obtain ⟨hn, he, hc, hdir⟩ :=
    domWalkLoop_spec rel fuel B (FlowGraph.mk [NodeContent.block B] []) 0 g rfl rfl h
  have he' : g.edges = chainEdges 0 (idomChain rel fuel B) := by simpa using he
  refine ⟨by simpa using hn, he', hc, ?_⟩
  intro p hp
  rw [he'] at hp
  exact hdir p hp

/-! ## Tree-walk lemmas -/

/-- Soundness of the recursive child walk: every node of the resulting
graph was already present, or represents a block reachable from the
parent `b` (whose children list contains `cs`). -/
theorem add_children_list_sound (ch : Nat → List Nat) :
    ∀ (fuel : Nat) (cs : List Nat) (b : Nat), (∀ c ∈ cs, c ∈ ch b) →
    ∀ (parent_node : Nat) (g g' : FlowGraph),
    add_children_list ch fuel cs parent_node g = some g' →
    ∀ n ∈ g'.nodes, n ∈ g.nodes ∨ ∃ x, n = NodeContent.block x ∧ Reaches ch b x := by
  intro fuel
  induction fuel with
  | zero =>
      intro cs b hsub pn g g' hw n hn
      cases cs with
      | nil =>
          simp only [add_children_list] at hw
          cases hw
          exact Or.inl hn
      | cons c cs' => exact Option.noConfusion hw
  | succ fuel ih =>
      intro cs b hsub pn g g' hw n hn
      cases cs with
      | nil =>
          simp only [add_children_list] at hw
          cases hw
          exact Or.inl hn
      | cons c cs' =>
          simp only [add_children_list, get_block_node, add_outgoing_edge] at hw
          set g2 : FlowGraph :=
            FlowGraph.mk (g.nodes ++ [NodeContent.block c]) (g.edges ++ [(pn, g.nodes.length)])
            with hg2
          cases hinner : add_children_list ch fuel (ch c) g.nodes.length g2 with
          | none => rw [hinner] at hw; exact Option.noConfusion hw
          | some g1 =>
              rw [hinner] at hw
              have hsib := ih cs' b (fun d hd => hsub d (List.mem_cons_of_mem c hd)) pn g1 g' hw
              rcases hsib n hn with hn1 | ⟨x, hx, hr⟩
              · have hcsub := ih (ch c) c (fun d hd => hd) g.nodes.length g2 g1 hinner
                rcases hcsub n hn1 with hn2 | ⟨x, hx, hr⟩
                · simp only [hg2] at hn2
                  rcases List.mem_append.mp hn2 with hn3 | hn3
                  · exact Or.inl hn3
                  · refine Or.inr ⟨c, by simpa using hn3, ?_⟩
                    exact reaches_of_child (hsub c (List.mem_cons_self c cs'))
                · exact Or.inr ⟨x, hx, reaches_head (hsub c (List.mem_cons_self c cs')) hr⟩
              · exact Or.inr ⟨x, hx, hr⟩

/-- Full specification of the recursive child walk over a well-formed
forest (nodup children lists, unique parents, depth function): the walk
appends exactly one block node per block reachable from a member of `cs`,
with no duplicates. -/
theorem add_children_list_strong (ch : Nat → List Nat)
    (hndch : ∀ b, (ch b).Nodup)
    (huniq : ∀ b1 b2 c, c ∈ ch b1 → c ∈ ch b2 → b1 = b2)
    (depth : Nat → Nat) (hd : ∀ b c, c ∈ ch b → depth c = depth b + 1) :
    ∀ (fuel : Nat) (cs : List Nat) (b : Nat), (∀ c ∈ cs, c ∈ ch b) → cs.Nodup →
    ∀ (parent_node : Nat) (g g' : FlowGraph),
    add_children_list ch fuel cs parent_node g = some g' →
    ∃ l : List Nat, g'.nodes = g.nodes ++ l.map NodeContent.block ∧
      (∀ x, x ∈ l ↔ ∃ c, c ∈ cs ∧ Reaches ch c x) ∧ l.Nodup := by
  intro fuel
  induction fuel with
  | zero =>
      intro cs b hsub hnd pn g g' hw
      cases cs with
      | nil =>
          simp only [add_children_list] at hw
          cases hw
          exact ⟨[], by simp, by simp, List.nodup_nil⟩
      | cons c cs' => exact Option.noConfusion hw
  | succ fuel ih =>
      intro cs b hsub hnd pn g g' hw
      cases cs with
      | nil =>
          simp only [add_children_list] at hw
          cases hw
          exact ⟨[], by simp, by simp, List.nodup_nil⟩
      | cons c cs' =>
          simp only [add_children_list, get_block_node, add_outgoing_edge] at hw
          set g2 : FlowGraph :=
            FlowGraph.mk (g.nodes ++ [NodeContent.block c]) (g.edges ++ [(pn, g.nodes.length)])
            with hg2
          cases hinner : add_children_list ch fuel (ch c) g.nodes.length g2 with
          | none => rw [hinner] at hw; exact Option.noConfusion hw
          | some g1 =>
              rw [hinner] at hw
              obtain ⟨lc, hlc_nodes, hlc_iff, hlc_nd⟩ :=
                ih (ch c) c (fun d hd => hd) (hndch c) g.nodes.length g2 g1 hinner
              obtain ⟨lr, hlr_nodes, hlr_iff, hlr_nd⟩ :=
                ih cs' b (fun d hd => hsub d (List.mem_cons_of_mem c hd))
                  (List.Nodup.of_cons hnd) pn g1 g' hw
              have hcb : c ∈ ch b := hsub c (List.mem_cons_self c cs')
              have hcnotin : c ∉ cs' := (List.nodup_cons.mp hnd).1
              refine ⟨c :: (lc ++ lr), ?_, ?_, ?_⟩
              · rw [hlr_nodes, hlc_nodes]
                simp [hg2]
              · intro x
                constructor
                · intro hx
                  rcases List.mem_cons.mp hx with hx | hx
                  · rw [hx]
                    exact ⟨c, List.mem_cons_self c cs', Reaches.refl c⟩
                  · rcases List.mem_append.mp hx with hx | hx
                    · obtain ⟨c', hc', hr⟩ := (hlc_iff x).mp hx
                      exact ⟨c, List.mem_cons_self c cs', reaches_head hc' hr⟩
                    · obtain ⟨c0, hc0, hr⟩ := (hlr_iff x).mp hx
                      exact ⟨c0, List.mem_cons_of_mem c hc0, hr⟩
                · rintro ⟨c0, hc0, hr⟩
                  rcases List.mem_cons.mp hc0 with hc0 | hc0
                  · subst hc0
                    rcases reaches_head_cases hr with heq | ⟨c', hc', hr'⟩
                    · subst heq
                      exact List.mem_cons_self _ _
                    · exact List.mem_cons_of_mem _
                        (List.mem_append.mpr (Or.inl ((hlc_iff x).mpr ⟨c', hc', hr'⟩)))
                  · exact List.mem_cons_of_mem _
                      (List.mem_append.mpr (Or.inr ((hlr_iff x).mpr ⟨c0, hc0, hr⟩)))
              · rw [List.nodup_cons]
                constructor
                · intro hx
                  rcases List.mem_append.mp hx with hx | hx
                  · obtain ⟨c', hc', hr⟩ := (hlc_iff c).mp hx
                    exact not_reaches_back depth hd hc' hr
                  · obtain ⟨c0, hc0, hr⟩ := (hlr_iff c).mp hx
                    exact subtree_disjoint huniq depth hd
                      (hsub c0 (List.mem_cons_of_mem c hc0)) hcb
                      (fun h => hcnotin (h ▸ hc0)) hr (Reaches.refl c)
                · refine List.Nodup.append hlc_nd hlr_nd ?_
                  intro x hx1 hx2
                  obtain ⟨c', hc', hr1⟩ := (hlc_iff x).mp hx1
                  obtain ⟨c0, hc0, hr2⟩ := (hlr_iff x).mp hx2
                  exact subtree_disjoint huniq depth hd hcb
                    (hsub c0 (List.mem_cons_of_mem c hc0))
                    (fun h => hcnotin (h ▸ hc0)) (reaches_head hc' hr1) hr2

/-- A block that is its own child makes the recursive walk diverge: the
walk returns `none` for every fuel bound whenever the pending sibling
list contains that block. -/
theorem add_children_list_self_diverges (ch : Nat → List Nat) (b : Nat) (hb : b ∈ ch b) :
    ∀ (fuel : Nat) (cs : List Nat), b ∈ cs →
    ∀ (parent_node : Nat) (g : FlowGraph),
    add_children_list ch fuel cs parent_node g = none := by
  intro fuel
  induction fuel with
  | zero =>
      intro cs hmem pn g
      cases cs with
      | nil => exact absurd hmem (List.not_mem_nil b)
      | cons c cs' => rfl
  | succ fuel ih =>
      intro cs hmem pn g
      cases cs with
      | nil => exact absurd hmem (List.not_mem_nil b)
      | cons c cs' =>
          simp only [add_children_list]
          rcases List.mem_cons.mp hmem with heq | hmem'
          · have hb' : b ∈ ch c := by rw [← heq]; exact hb
            rw [ih (ch c) hb']
          · cases hinner : add_children_list ch fuel (ch c) _ _ with
            | none => rfl
            | some g1 => exact ih cs' hmem' pn g1

/-- A self-loop in `immediate_dominator` makes the chain-walk loop run
forever: it returns `none` for every fuel bound. -/
theorem domWalkLoop_self_diverges (rel : DomRel) (b : Nat)
    (h : rel.immediate_dominator b = some b) :
    ∀ (fuel : Nat) (g : FlowGraph) (cn : Nat),
    domWalkLoop rel fuel g cn (some b) = none := by
  intro fuel
  induction fuel with
  | zero => intro g cn; rfl
  | succ fuel ih =>
      intro g cn
      simp only [domWalkLoop, h]
      exact ih _ _

/-- A self-loop in `immediate_post_dominator` makes the post-dominator
chain-walk loop run forever. -/
theorem postDomWalkLoop_self_diverges (rel : DomRel) (b : Nat)
    (h : rel.immediate_post_dominator b = some b) :
    ∀ (fuel : Nat) (g : FlowGraph) (cn : Nat),
    postDomWalkLoop rel fuel g cn (some b) = none := by
  intro fuel
  induction fuel with
  | zero => intro g cn; rfl
  | succ fuel ih =>
      intro g cn
      simp only [postDomWalkLoop, h]
      exact ih _ _

/-! ## Worklist lemmas -/

theorem df_loop_frontier_mono {x : Nat} :
    ∀ (ds frontier worklist : List Nat), x ∈ frontier →
    x ∈ (df_loop ds frontier worklist).1 := by
  intro ds
  induction ds with
  | nil => intro f w hx; exact hx
  | cons d ds ih =>
      intro f w hx
      simp only [df_loop]
      by_cases hd : d ∈ f
      · simp only [hd, if_true]
        exact ih f w hx
      · simp only [hd, if_false]
        exact ih _ _ (List.mem_append.mpr (Or.inl hx))

theorem df_loop_frontier_from {x : Nat} :
    ∀ (ds frontier worklist : List Nat), x ∈ (df_loop ds frontier worklist).1 →
    x ∈ frontier ∨ x ∈ ds := by
  intro ds
  induction ds with
  | nil => intro f w hx; exact Or.inl hx
  | cons d ds ih =>
      intro f w hx
      simp only [df_loop] at hx
      by_cases hd : d ∈ f
      · simp only [hd, if_true] at hx
        rcases ih f w hx with h | h
        · exact Or.inl h
        · exact Or.inr (List.mem_cons_of_mem d h)
      · simp only [hd, if_false] at hx
        rcases ih _ _ hx with h | h
        · rcases List.mem_append.mp h with h | h
          · exact Or.inl h
          · exact Or.inr (List.mem_cons.mpr (Or.inl (by simpa using h)))
        · exact Or.inr (List.mem_cons_of_mem d h)

theorem df_loop_processed {x : Nat} :
    ∀ (ds frontier worklist : List Nat), x ∈ ds →
    x ∈ (df_loop ds frontier worklist).1 := by
  intro ds
  induction ds with
  | nil => intro f w hx; exact absurd hx (List.not_mem_nil x)
  | cons d ds ih =>
      intro f w hx
      simp only [df_loop]
      rcases List.mem_cons.mp hx with heq | hmem
      · by_cases hd : d ∈ f
        · simp only [hd, if_true]
          exact df_loop_frontier_mono ds f w (heq ▸ hd)
        · simp only [hd, if_false]
          exact df_loop_frontier_mono ds _ _
            (List.mem_append.mpr (Or.inr (by simp [heq])))
      · by_cases hd : d ∈ f
        · simp only [hd, if_true]; exact ih f w hmem
        · simp only [hd, if_false]; exact ih _ _ hmem

theorem df_loop_worklist_from {x : Nat} :
    ∀ (ds frontier worklist : List Nat), x ∈ (df_loop ds frontier worklist).2 →
    x ∈ worklist ∨ x ∈ ds := by
  intro ds
  induction ds with
  | nil => intro f w hx; exact Or.inl hx
  | cons d ds ih =>
      intro f w hx
      simp only [df_loop] at hx
      by_cases hd : d ∈ f
      · simp only [hd, if_true] at hx
        rcases ih f w hx with h | h
        · exact Or.inl h
        · exact Or.inr (List.mem_cons_of_mem d h)
      · simp only [hd, if_false] at hx
        rcases ih _ _ hx with h | h
        · rcases List.mem_append.mp h with h | h
          · exact Or.inl h
          · exact Or.inr (List.mem_cons.mpr (Or.inl (by simpa using h)))
        · exact Or.inr (List.mem_cons_of_mem d h)

theorem df_loop_worklist_mono {x : Nat} :
    ∀ (ds frontier worklist : List Nat), x ∈ worklist →
    x ∈ (df_loop ds frontier worklist).2 := by
  intro ds
  induction ds with
  | nil => intro f w hx; exact hx
  | cons d ds ih =>
      intro f w hx
      simp only [df_loop]
      by_cases hd : d ∈ f
      · simp only [hd, if_true]; exact ih f w hx
      · simp only [hd, if_false]
        exact ih _ _ (List.mem_append.mpr (Or.inl hx))

theorem df_loop_nodup :
    ∀ (ds frontier worklist : List Nat), frontier.Nodup →
    (df_loop ds frontier worklist).1.Nodup := by
  intro ds
  induction ds with
  | nil => intro f w hf; exact hf
  | cons d ds ih =>
      intro f w hf
      simp only [df_loop]
      by_cases hd : d ∈ f
      · simp only [hd, if_true]; exact ih f w hf
      · simp only [hd, if_false]
        refine ih _ _ ?_
        simpa [List.nodup_append] using ⟨hf, hd⟩

/-- Every block newly inserted into the frontier was also pushed onto the
worklist. -/
theorem df_loop_new_in_worklist {x : Nat} :
    ∀ (ds frontier worklist : List Nat), x ∈ (df_loop ds frontier worklist).1 →
    x ∈ frontier ∨ x ∈ (df_loop ds frontier worklist).2 := by
  intro ds
  induction ds with
  | nil => intro f w hx; exact Or.inl hx
  | cons d ds ih =>
      intro f w hx
      simp only [df_loop] at hx ⊢
      by_cases hd : d ∈ f
      · simp only [hd, if_true] at hx ⊢
        exact ih f w hx
      · simp only [hd, if_false] at hx ⊢
        rcases ih _ _ hx with h | h
        · rcases List.mem_append.mp h with h | h
          · exact Or.inl h
          · refine Or.inr (df_loop_worklist_mono ds _ _ ?_)
            exact List.mem_append.mpr (Or.inr h)
        · exact Or.inr h

/-- Frontier and worklist grow by the same number of elements. -/
theorem df_loop_length :
    ∀ (ds frontier worklist : List Nat),
    (df_loop ds frontier worklist).1.length + worklist.length =
    (df_loop ds frontier worklist).2.length + frontier.length := by
  intro ds
  induction ds with
  | nil => intro f w; simp only [df_loop]; omega
  | cons d ds ih =>
      intro f w
      simp only [df_loop]
      by_cases hd : d ∈ f
      · simp only [hd, if_true]; exact ih f w
      · simp only [hd, if_false]
        have := ih (f ++ [d]) (w ++ [d])
        simp only [List.length_append, List.length_singleton] at this
        omega

/-- Main invariant of the worklist loop: starting from a duplicate-free
frontier inside the universe `univ`, with every frontier block either
still pending or already fully processed, and with enough fuel for the
remaining work, the loop empties its worklist and returns a
duplicate-free frontier inside `univ`, closed under `df`, that contains
the starting frontier and has at most `univ.length` members. -/
theorem idfAux_main (df : Nat → List Nat) (univ : List Nat)
    (hdf : ∀ b, b ∈ univ → ∀ d, d ∈ df b → d ∈ univ) :
    ∀ (fuel : Nat) (frontier worklist : List Nat),
    frontier.Nodup →
    (∀ x, x ∈ frontier → x ∈ univ) →
    (∀ x, x ∈ worklist → x ∈ univ) →
    (∀ x, x ∈ frontier → x ∈ worklist ∨ ∀ d, d ∈ df x → d ∈ frontier) →
    univ.length + worklist.length ≤ fuel + frontier.length →
    ∃ r, idfAux df fuel frontier worklist = some r ∧ r.Nodup ∧
      (∀ x, x ∈ r → x ∈ univ) ∧
      (∀ x, x ∈ frontier → x ∈ r) ∧
      (∀ x, x ∈ r → ∀ d, d ∈ df x → d ∈ r) ∧
      r.length ≤ univ.length := by
  intro fuel
  induction fuel with
  | zero =>
      intro frontier worklist hnd hfu hwu hJ hfuel
      cases worklist with
      | nil =>
          refine ⟨frontier, rfl, hnd, hfu, fun x hx => hx, ?_, ?_⟩
          · intro x hx d hd
            rcases hJ x hx with h | h
            · exact absurd h (List.not_mem_nil x)
            · exact h d hd
          · exact (List.subperm_of_subset hnd hfu).length_le
      | cons b rest =>
          exfalso
          have hle : frontier.length ≤ univ.length :=
            (List.subperm_of_subset hnd hfu).length_le
          simp only [List.length_cons] at hfuel
          omega
  | succ fuel ih =>
      intro frontier worklist hnd hfu hwu hJ hfuel
      cases worklist with
      | nil =>
          refine ⟨frontier, rfl, hnd, hfu, fun x hx => hx, ?_, ?_⟩
          · intro x hx d hd
            rcases hJ x hx with h | h
            · exact absurd h (List.not_mem_nil x)
            · exact h d hd
          · exact (List.subperm_of_subset hnd hfu).length_le
      | cons b rest =>
          have hbu : b ∈ univ := hwu b (List.mem_cons_self b rest)
          have hnd' : (df_loop (df b) frontier rest).1.Nodup :=
            df_loop_nodup _ _ _ hnd
          have hfu' : ∀ x, x ∈ (df_loop (df b) frontier rest).1 → x ∈ univ := by
            intro x hx
            rcases df_loop_frontier_from _ _ _ hx with h | h
            · exact hfu x h
            · exact hdf b hbu x h
          have hwu' : ∀ x, x ∈ (df_loop (df b) frontier rest).2 → x ∈ univ := by
            intro x hx
            rcases df_loop_worklist_from _ _ _ hx with h | h
            · exact hwu x (List.mem_cons_of_mem b h)
            · exact hdf b hbu x h
          have hJ' : ∀ x, x ∈ (df_loop (df b) frontier rest).1 →
              x ∈ (df_loop (df b) frontier rest).2 ∨
              ∀ d, d ∈ df x → d ∈ (df_loop (df b) frontier rest).1 := by
            intro x hx
            by_cases hxf : x ∈ frontier
            · rcases hJ x hxf with h | h
              · rcases List.mem_cons.mp h with heq | hmem
                · refine Or.inr ?_
                  intro d hd
                  refine df_loop_processed _ _ _ ?_
                  rw [heq] at hd
                  exact hd
                · exact Or.inl (df_loop_worklist_mono _ _ _ hmem)
              · exact Or.inr fun d hd => df_loop_frontier_mono _ _ _ (h d hd)
            · rcases df_loop_new_in_worklist _ _ _ hx with h | h
              · exact absurd h hxf
              · exact Or.inl h
          have hfuel' : univ.length + (df_loop (df b) frontier rest).2.length ≤
              fuel + (df_loop (df b) frontier rest).1.length := by
            have := df_loop_length (df b) frontier rest
            simp only [List.length_cons] at hfuel
            omega
          obtain ⟨r, hr, h1, h2, h3, h4, h5⟩ :=
            ih (df_loop (df b) frontier rest).1 (df_loop (df b) frontier rest).2
              hnd' hfu' hwu' hJ' hfuel'
          refine ⟨r, ?_, h1, h2, ?_, h4, h5⟩
          · simpa [idfAux] using hr
          · intro x hx
            exact h3 x (df_loop_frontier_mono _ _ _ hx)

/-- Upper-bound invariant: if `P` is closed under `df` and holds on the
current frontier and worklist, it holds on every member of any frontier
the loop returns (no termination assumption needed). -/
theorem idfAux_upper (df : Nat → List Nat) (P : Nat → Prop)
    (hP : ∀ x, P x → ∀ d, d ∈ df x → P d) :
    ∀ (fuel : Nat) (frontier worklist : List Nat),
    (∀ x, x ∈ frontier → P x) → (∀ x, x ∈ worklist → P x) →
    ∀ r, idfAux df fuel frontier worklist = some r → ∀ x, x ∈ r → P x := by
  intro fuel
  induction fuel with
  | zero =>
      intro frontier worklist hf hw r hr
      cases worklist with
      | nil =>
          simp only [idfAux] at hr
          cases hr
          exact hf
      | cons b rest => exact Option.noConfusion hr
  | succ fuel ih =>
      intro frontier worklist hf hw r hr
      cases worklist with
      | nil =>
          simp only [idfAux] at hr
          cases hr
          exact hf
      | cons b rest =>
          simp only [idfAux] at hr
          have hPb : P b := hw b (List.mem_cons_self b rest)
          refine ih (df_loop (df b) frontier rest).1 (df_loop (df b) frontier rest).2
            ?_ ?_ r hr
          · intro x hx
            rcases df_loop_frontier_from _ _ _ hx with h | h
            · exact hf x h
            · exact hP b hPb x h
          · intro x hx
            rcases df_loop_worklist_from _ _ _ hx with h | h
            · exact hw x (List.mem_cons_of_mem b h)
            · exact hP b hPb x h

/-! ## Claim theorems -/

/-- C1: the iterated-dominance-frontier worklist computation (seed `{B}`,
FIFO worklist, insert-if-new then push) reaches a fixed point that is
idempotent under re-application: re-running the same worklist algorithm
with the resulting frontier as the new seed set adds no member not already
in that frontier.  `univ` is the function's (finite) block set; the
dominance frontier of a block consists of blocks of the same function. -/
theorem claim_C1_idf_idempotent (df : Nat → List Nat) (univ : List Nat) (B : Nat)
    (F F' : List Nat) (fuel2 : Nat)
    (hB : B ∈ univ) (hdf : ∀ b, b ∈ univ → ∀ d, d ∈ df b → d ∈ univ)
    (h1 : idfCompute df [B] (univ.length + 1) = some F)
    (h2 : idfCompute df F fuel2 = some F') : F' ⊆ F := by
  obtain ⟨r, hr, _, _, _, hclos, _⟩ :=
    idfAux_main df univ hdf (univ.length + 1) [] [B] List.nodup_nil
      (fun x hx => absurd hx (List.not_mem_nil x))
      (fun x hx => by rw [List.mem_singleton] at hx; rw [hx]; exact hB)
      (fun x hx => absurd hx (List.not_mem_nil x))
      (by simp)
  simp only [idfCompute] at h1 h2
  rw [h1] at hr
  have hrF : F = r := Option.some.inj hr
  rw [← hrF] at hclos
  intro x hx
  exact idfAux_upper df (fun y => y ∈ F) hclos fuel2 [] F
    (fun y hy => absurd hy (List.not_mem_nil y)) (fun y hy => hy) F' h2 x hx

/-- C1 witness: with frontier map `dfW1` over universe `[0, 1]`, seeding at
block 0 yields frontier `[1]`, and re-running seeded with `[1]` stays
within `[1]`. -/
theorem claim_C1_witness : ([1] : List Nat) ⊆ [1] :=
  claim_C1_idf_idempotent dfW1 [0, 1] 0 [1] [1] 3 (by decide) (by decide) rfl rfl

/-- C2: for every block `B`, a finished dominator-chain view consists of
the node for `B` plus one node per ancestor obtained by repeatedly
following `immediate_dominator` until `none`; the edge count equals the
number of ancestors walked and every edge points from an ancestor toward
the node it immediately dominates, never the reverse. -/
theorem claim_C2_dominator_chain (rel : DomRel) (B : Nat) (fuel : Nat) (g : FlowGraph)
    (h : DominatorsSlice_get_flowgraph rel (some B) fuel = some g) :
    g.nodes = NodeContent.block B :: (idomChain rel fuel B).map NodeContent.block ∧
    IsIdomChain rel B (idomChain rel fuel B) ∧
    g.nodes.length = (idomChain rel fuel B).length + 1 ∧
    g.edges.length = (idomChain rel fuel B).length ∧
    ∀ p ∈ g.edges, ∃ u v,
      g.nodes.get? p.1 = some (NodeContent.block u) ∧
      g.nodes.get? p.2 = some (NodeContent.block v) ∧
      rel.immediate_dominator v = some u := by
  obtain ⟨hn, he, hc, hdir⟩ := dominators_slice_spec rel B fuel g h
  refine ⟨hn, hc, by simp [hn], by simp [he, chainEdges_length], hdir⟩

/-- C2 witness: for `relW` (block 0's immediate dominator is block 1, block
1 has none), the chain view has one edge, matching the one walked
ancestor, and the computed chain `[1]` is the complete ancestor chain. -/
theorem claim_C2_witness :
    (FlowGraph.mk [NodeContent.block 0, NodeContent.block 1] [(1, 0)]).edges.length =
      (idomChain relW 3 0).length ∧
    IsIdomChain relW 0 (idomChain relW 3 0) := by
  obtain ⟨_, hc, _, hlen, _⟩ :=
    claim_C2_dominator_chain relW 0 3
      (FlowGraph.mk [NodeContent.block 0, NodeContent.block 1] [(1, 0)]) rfl
  exact ⟨hlen, hc⟩

/-- C3 counterexample: the claim says a chain walk that revisits an
already-emitted block identity detects the cycle and fails fast with a
malformed-input error.  In fact the code has no such check: on `cycRel`
(block 0 is its own immediate dominator) the dominator-chain walk on block
0 never finishes, for every fuel bound — it loops instead of failing. -/
theorem claim_C3_counterexample : chain_walk_diverges cycRel 0 := by
  intro fuel
  simp only [DominatorsSlice_get_flowgraph, get_block_node, emptyFlowGraph]
  exact domWalkLoop_self_diverges cycRel 0 rfl fuel _ _

/-- C3 (amended): none of the chain walks or full-tree recursions performs
revisit detection; on a malformed relation where a block is its own
immediate (post-)dominator or its own dominator-tree child, the dominator,
post-dominator and strict-dominator chain views and the full-dominator-tree
view all fail to terminate (they return `none` for every fuel bound)
instead of failing fast with a malformed-input error. -/
theorem claim_C3_no_cycle_detection (rel : DomRel) (b : Nat) (fuel : Nat)
    (h1 : rel.immediate_dominator b = some b)
    (h2 : rel.immediate_post_dominator b = some b)
    (h3 : b ∈ rel.dominator_tree_children b) :
    DominatorsSlice_get_flowgraph rel (some b) fuel = none ∧
    PostDominatorsSlice_get_flowgraph rel (some b) fuel = none ∧
    StrictDominatorsSlice_get_flowgraph rel (some b) fuel = none ∧
    FullDominatorTreeSlice_get_flowgraph rel (some [b]) fuel = none := by
  refine ⟨?_, ?_, ?_, ?_⟩
  · simp only [DominatorsSlice_get_flowgraph, h1]
    exact domWalkLoop_self_diverges rel b h1 fuel _ _
  · simp only [PostDominatorsSlice_get_flowgraph, h2]
    exact postDomWalkLoop_self_diverges rel b h2 fuel _ _
  · simp only [StrictDominatorsSlice_get_flowgraph, h1]
    exact domWalkLoop_self_diverges rel b h1 fuel _ _
  · simp only [FullDominatorTreeSlice_get_flowgraph, add_children]
    exact add_children_list_self_diverges rel.dominator_tree_children b h3 fuel
      (rel.dominator_tree_children b) h3 _ _

/-- C3 witness: on `cycRel` all four cyclic walks return `none` at fuel 7;
here the post-dominator chain instance. -/
theorem claim_C3_witness : PostDominatorsSlice_get_flowgraph cycRel (some 0) 7 = none :=
  (claim_C3_no_cycle_detection cycRel 0 7 rfl rfl (by decide)).2.1

/-- C4 counterexample: the claim says the text-diagram export returns the
literal single-line string `No function found at address 0x10` when no
function exists at address 16.  In fact the returned string is that
diagnostic wrapped in the mermaid code fence, so it is not the claimed
single-line literal. -/
theorem claim_C4_counterexample :
    generate_dominator_mermaid trivialRel noFuncBV 16 =
      "```mermaid\nNo function found at address 0x10\n```" ∧
    generate_dominator_mermaid trivialRel noFuncBV 16 ≠
      "No function found at address 0x10" := by
  constructor
  · rfl
  · decide

/-- C4 (amended): for every address with no function, each of the seven
text-diagram export functions returns the diagnostic line
`No function found at address 0x<addr>` wrapped in the three-backtick
mermaid fence (not as a bare single-line string). -/
theorem claim_C4_fenced_diagnostic (rel : DomRel) (bv : BinaryView) (addr : Nat)
    (vb : Option (List Nat)) (fuel : Nat)
    (h : bv.get_function_at addr = none) :
    generate_dominator_mermaid rel bv addr =
      "```mermaid\n" ++ ("No function found at address " ++ pyHex addr) ++ "\n```" ∧
    generate_post_dominator_mermaid rel bv addr =
      "```mermaid\n" ++ ("No function found at address " ++ pyHex addr) ++ "\n```" ∧
    generate_dominance_frontier_mermaid rel bv addr =
      "```mermaid\n" ++ ("No function found at address " ++ pyHex addr) ++ "\n```" ∧
    generate_post_dominance_frontier_mermaid rel bv addr =
      "```mermaid\n" ++ ("No function found at address " ++ pyHex addr) ++ "\n```" ∧
    generate_immediate_dominator_mermaid rel bv addr =
      "```mermaid\n" ++ ("No function found at address " ++ pyHex addr) ++ "\n```" ∧
    generate_immediate_post_dominator_mermaid rel bv addr =
      "```mermaid\n" ++ ("No function found at address " ++ pyHex addr) ++ "\n```" ∧
    generate_iterated_dominance_frontier_mermaid rel bv addr vb fuel =
      some ("```mermaid\n" ++ ("No function found at address " ++ pyHex addr) ++ "\n```") := by
  refine ⟨?_, ?_, ?_, ?_, ?_, ?_, ?_⟩
  · simp only [generate_dominator_mermaid, h]
  · simp only [generate_post_dominator_mermaid, h]
  · simp only [generate_dominance_frontier_mermaid, h]
  · simp only [generate_post_dominance_frontier_mermaid, h]
  · simp only [generate_immediate_dominator_mermaid, h]
  · simp only [generate_immediate_post_dominator_mermaid, h]
  · simp only [generate_iterated_dominance_frontier_mermaid, h]

/-- C4 witness: the post-dominator export at an address with no function
returns the fenced diagnostic. -/
theorem claim_C4_witness :
    generate_post_dominator_mermaid trivialRel noFuncBV 16 =
      "```mermaid\n" ++ ("No function found at address " ++ pyHex 16) ++ "\n```" :=
  (claim_C4_fenced_diagnostic trivialRel noFuncBV 16 none 0 rfl).2.1

/-- The recursive child walk only appends nodes. -/
theorem add_children_list_nodes_prefix (ch : Nat → List Nat) :
    ∀ (fuel : Nat) (cs : List Nat) (parent_node : Nat) (g g' : FlowGraph),
    add_children_list ch fuel cs parent_node g = some g' →
    ∃ l, g'.nodes = g.nodes ++ l := by
  intro fuel
  induction fuel with
  | zero =>
      intro cs pn g g' hw
      cases cs with
      | nil =>
          simp only [add_children_list] at hw
          cases hw
          exact ⟨[], by simp⟩
      | cons c cs' => exact Option.noConfusion hw
  | succ fuel ih =>
      intro cs pn g g' hw
      cases cs with
      | nil =>
          simp only [add_children_list] at hw
          cases hw
          exact ⟨[], by simp⟩
      | cons c cs' =>
          simp only [add_children_list, get_block_node, add_outgoing_edge] at hw
          cases hinner : add_children_list ch fuel (ch c) g.nodes.length
            (FlowGraph.mk (g.nodes ++ [NodeContent.block c])
              (g.edges ++ [(pn, g.nodes.length)])) with
          | none => rw [hinner] at hw; exact Option.noConfusion hw
          | some g1 =>
              rw [hinner] at hw
              obtain ⟨l1, hl1⟩ := ih (ch c) g.nodes.length _ g1 hinner
              obtain ⟨l2, hl2⟩ := ih cs' pn g1 g' hw
              refine ⟨NodeContent.block c :: (l1 ++ l2), ?_⟩
              rw [hl2, hl1]
              simp

/-- C5: the full post-dominator tree view roots at the first block in
iteration order whose `outgoing_edges` set is empty; when no exit block
exists the result is the empty graph; and every block node of the result
is reachable from that first exit block through
`post_dominator_tree_children`, so a second exit block whose subtree is
disjoint from the first one's is absent from the result. -/
theorem claim_C5_full_post_dominator_tree (rel : DomRel) (blocks : List Nat) (fuel : Nat) :
    (blocks.filter (fun b => (rel.outgoing_edges b).isEmpty) = [] →
      FullPostDominatorTreeSlice_get_flowgraph rel (some blocks) fuel =
        some emptyFlowGraph) ∧
    (∀ root rest g,
      blocks.filter (fun b => (rel.outgoing_edges b).isEmpty) = root :: rest →
      FullPostDominatorTreeSlice_get_flowgraph rel (some blocks) fuel = some g →
      g.nodes.head? = some (NodeContent.block root) ∧
      (∀ x, NodeContent.block x ∈ g.nodes →
        Reaches rel.post_dominator_tree_children root x) ∧
      (∀ e, ¬ Reaches rel.post_dominator_tree_children root e →
        NodeContent.block e ∉ g.nodes)) := by
  constructor
  · intro hfil
    simp only [FullPostDominatorTreeSlice_get_flowgraph, hfil]
  · intro root rest g hfil hres
    simp only [FullPostDominatorTreeSlice_get_flowgraph, hfil, get_block_node,
      emptyFlowGraph, add_children] at hres
    have hsound : ∀ x, NodeContent.block x ∈ g.nodes →
        Reaches rel.post_dominator_tree_children root x := by
      intro x hx
      have := add_children_list_sound rel.post_dominator_tree_children fuel
        (rel.post_dominator_tree_children root) root (fun c hc => hc) 0
        (FlowGraph.mk [NodeContent.block root] []) g hres (NodeContent.block x) hx
      rcases this with hmem | ⟨y, hy, hr⟩
      · have hxr : x = root := by
          have := List.mem_singleton.mp hmem
          injection this with h
        rw [hxr]
        exact Reaches.refl root
      · have hxy : x = y := by injection hy with h
        rw [hxy]
        exact hr
    refine ⟨?_, hsound, ?_⟩
    · obtain ⟨l, hl⟩ := add_children_list_nodes_prefix rel.post_dominator_tree_children
        fuel (rel.post_dominator_tree_children root) 0
        (FlowGraph.mk [NodeContent.block root] []) g hres
      rw [hl]
      rfl
    · intro e hne hmem
      exact hne (hsound e hmem)

/-- C5 witness: two exit blocks `[0, 1]` under `trivialRel`; the view
roots at block 0, and block 1 (unreachable from block 0 through the
post-dominator tree) is absent from the result. -/
theorem claim_C5_witness :
    (FlowGraph.mk [NodeContent.block 0] []).nodes.head? = some (NodeContent.block 0) ∧
    NodeContent.block 1 ∉ (FlowGraph.mk [NodeContent.block 0] []).nodes := by
  obtain ⟨hh, _, habs⟩ :=
    (claim_C5_full_post_dominator_tree trivialRel [0, 1] 5).2 0 [1]
      (FlowGraph.mk [NodeContent.block 0] []) rfl rfl
  refine ⟨hh, habs 1 ?_⟩
  intro hr
  cases hr with
  | tail _ hmem => exact absurd hmem (List.not_mem_nil _)

/-- C6: the full dominator tree view roots at `function.blocks[0]`, returns
the empty graph for a function with zero blocks, and — when the dominator
relation is a well-formed forest (duplicate-free children lists, unique
parents, a depth function) — its nodes are exactly one block node per
block reachable from the entry through `dominator_tree_children`, with no
block appearing twice. -/
theorem claim_C6_full_dominator_tree (rel : DomRel) (b0 : Nat) (rest : List Nat)
    (fuel : Nat) (g : FlowGraph) (depth : Nat → Nat)
    (hndch : ∀ b, (rel.dominator_tree_children b).Nodup)
    (huniq : ∀ b1 b2 c, c ∈ rel.dominator_tree_children b1 →
      c ∈ rel.dominator_tree_children b2 → b1 = b2)
    (hdepth : ∀ b c, c ∈ rel.dominator_tree_children b → depth c = depth b + 1)
    (hres : FullDominatorTreeSlice_get_flowgraph rel (some (b0 :: rest)) fuel = some g) :
    FullDominatorTreeSlice_get_flowgraph rel (some ([] : List Nat)) fuel =
      some emptyFlowGraph ∧
    g.nodes.head? = some (NodeContent.block b0) ∧
    g.nodes.Nodup ∧
    (∀ x, NodeContent.block x ∈ g.nodes ↔ Reaches rel.dominator_tree_children b0 x) ∧
    (∀ n ∈ g.nodes, ∃ x, n = NodeContent.block x) := by
  simp only [FullDominatorTreeSlice_get_flowgraph, get_block_node, emptyFlowGraph,
    add_children] at hres
  obtain ⟨l, hnodes, hiff, hnd⟩ :=
    add_children_list_strong rel.dominator_tree_children hndch huniq depth hdepth
      fuel (rel.dominator_tree_children b0) b0 (fun c hc => hc) (hndch b0) 0
      (FlowGraph.mk [NodeContent.block b0] []) g hres
  have hb0notl : b0 ∉ l := by
    intro hb
    obtain ⟨c, hc, hr⟩ := (hiff b0).mp hb
    exact not_reaches_back depth hdepth hc hr
  have hinj : Function.Injective NodeContent.block := by
    intro a b h
    injection h
  refine ⟨rfl, ?_, ?_, ?_, ?_⟩
  · rw [hnodes]; rfl
  · rw [hnodes]
    simp only [List.singleton_append, List.nodup_cons]
    constructor
    · intro hmem
      obtain ⟨x, hx, heq⟩ := List.mem_map.mp hmem
      have : x = b0 := hinj heq
      rw [this] at hx
      exact hb0notl hx
    · exact hnd.map hinj
  · intro x
    rw [hnodes]
    constructor
    · intro hx
      rcases List.mem_append.mp hx with hx | hx
      · have : x = b0 := hinj (List.mem_singleton.mp hx)
        rw [this]
        exact Reaches.refl b0
      · obtain ⟨y, hy, heq⟩ := List.mem_map.mp hx
        have : y = x := hinj heq
        rw [← this]
        obtain ⟨c, hc, hr⟩ := (hiff y).mp hy
        exact reaches_head hc hr
    · intro hr
      rcases reaches_head_cases hr with heq | ⟨c, hc, hr'⟩
      · rw [← heq]
        exact List.mem_append.mpr (Or.inl (by simp))
      · exact List.mem_append.mpr
          (Or.inr (List.mem_map.mpr ⟨x, (hiff x).mpr ⟨c, hc, hr'⟩, rfl⟩))
  · intro n hn
    rw [hnodes] at hn
    rcases List.mem_append.mp hn with hn | hn
    · exact ⟨b0, List.mem_singleton.mp hn⟩
    · obtain ⟨y, hy, heq⟩ := List.mem_map.mp hn
      exact ⟨y, heq.symm⟩

/-- C6 witness: for `rel6W` on blocks `[0, 1, 2]` the full dominator tree
has duplicate-free nodes, contains block 2 (reachable from the entry) and
roots at block 0. -/
theorem claim_C6_witness :
    fg6W.nodes.Nodup ∧
    (NodeContent.block 2 ∈ fg6W.nodes ↔ Reaches rel6W.dominator_tree_children 0 2) ∧
    fg6W.nodes.head? = some (NodeContent.block 0) := by
  have hndch : ∀ b, (rel6W.dominator_tree_children b).Nodup := by
    intro b
    by_cases hb : b = 0 <;> simp [rel6W, hb]
  have huniq : ∀ b1 b2 c, c ∈ rel6W.dominator_tree_children b1 →
      c ∈ rel6W.dominator_tree_children b2 → b1 = b2 := by
    intro b1 b2 c h1 h2
    by_cases hb1 : b1 = 0
    · by_cases hb2 : b2 = 0
      · rw [hb1, hb2]
      · exfalso
        simp [rel6W, hb2] at h2
    · exfalso
      simp [rel6W, hb1] at h1
  have hdepth : ∀ b c, c ∈ rel6W.dominator_tree_children b →
      depth6W c = depth6W b + 1 := by
    intro b c hc
    by_cases hb : b = 0
    · simp [rel6W, hb] at hc
      rcases hc with rfl | rfl <;> simp [depth6W, hb]
    · exfalso
      simp [rel6W, hb] at hc
  obtain ⟨_, hh, hnd, hiff, _⟩ :=
    claim_C6_full_dominator_tree rel6W 0 [1, 2] 5 fg6W depth6W hndch huniq hdepth rfl
  exact ⟨hnd, hiff 2, hh⟩

/-- C7: for every block whose `immediate_dominator` is `None`, the
strict-dominators view is a graph with exactly one placeholder node whose
lines read "No strict dominators", and zero edges. -/
theorem claim_C7_strict_no_dominators (rel : DomRel) (B : Nat) (fuel : Nat)
    (h : rel.immediate_dominator B = none) :
    StrictDominatorsSlice_get_flowgraph rel (some B) fuel =
      some (FlowGraph.mk [NodeContent.text ("No strict dominators")] []) := by
  simp only [StrictDominatorsSlice_get_flowgraph, h, get_block_node, set_node_lines,
    emptyFlowGraph]
  rfl

/-- C7 witness: block 1 of `relW` has no immediate dominator; its
strict-dominators view is the single labeled placeholder with no edges. -/
theorem claim_C7_witness :
    StrictDominatorsSlice_get_flowgraph relW (some 1) 4 =
      some (FlowGraph.mk [NodeContent.text ("No strict dominators")] []) :=
  claim_C7_strict_no_dominators relW 1 4 rfl

/-- C8: the iterated-dominance-frontier worklist computation (an explicit
FIFO queue, not recursion) terminates whenever the seed blocks lie in the
finite universe `univ` and every dominance frontier stays inside `univ`:
with fuel `univ.length + seeds.length` — one unit per worklist pop, each
block entering the worklist at most once — the loop finishes, and the
resulting frontier is duplicate-free, contained in `univ`, and bounded in
size by the total block count. -/
theorem claim_C8_idf_terminates (df : Nat → List Nat) (univ seeds : List Nat)
    (hs : ∀ x, x ∈ seeds → x ∈ univ)
    (hdf : ∀ b, b ∈ univ → ∀ d, d ∈ df b → d ∈ univ) :
    ∃ r, idfCompute df seeds (univ.length + seeds.length) = some r ∧ r.Nodup ∧
      (∀ x, x ∈ r → x ∈ univ) ∧ r.length ≤ univ.length := by
  obtain ⟨r, hr, h1, h2, _, _, h5⟩ :=
    idfAux_main df univ hdf (univ.length + seeds.length) [] seeds List.nodup_nil
      (fun x hx => absurd hx (List.not_mem_nil x)) hs
      (fun x hx => absurd hx (List.not_mem_nil x)) (by simp)
  exact ⟨r, by simpa [idfCompute] using hr, h1, h2, h5⟩

/-- C8 witness: over universe `[0, 1]` with frontier map `dfW1`, seeding at
block 0 terminates with frontier `[1]`, duplicate-free and within the
block-count bound. -/
theorem claim_C8_witness :
    idfCompute dfW1 [0] 3 = some [1] ∧ ([1] : List Nat).Nodup ∧
      ([1] : List Nat).length ≤ ([0, 1] : List Nat).length := by
  obtain ⟨r, hr, hnd, _, hlen⟩ :=
    claim_C8_idf_terminates dfW1 [0, 1] [0] (by decide) (by decide)
  have h0 : idfCompute dfW1 [0] 3 = some [1] := rfl
  have hreq : r = [1] := Option.some.inj (hr.symm.trans h0)
  rw [hreq] at hnd hlen
  exact ⟨h0, hnd, hlen⟩

/-- C9: `get_block_node` always creates a fresh node: it returns the index
one past the previous node list, grows the node list by one, and two
successive calls — even with the same block identity — return distinct
node instances (the chain views may therefore show a recurring block as
several nodes; the worklist and full-tree algorithms avoid repeated calls
themselves where deduplication is needed). -/
theorem claim_C9_get_block_node_fresh (g : FlowGraph) (b1 b2 : Option Nat) :
    (get_block_node g b1).2 = g.nodes.length ∧
    (get_block_node g b1).1.nodes.length = g.nodes.length + 1 ∧
    (get_block_node (get_block_node g b1).1 b2).2 ≠ (get_block_node g b1).2 := by
  cases b1 <;> cases b2 <;> simp [get_block_node]

/-- C9 witness: creating two nodes for the same block 5 yields distinct
node indices. -/
theorem claim_C9_witness :
    (get_block_node (get_block_node emptyFlowGraph (some 5)).1 (some 5)).2 ≠
      (get_block_node emptyFlowGraph (some 5)).2 :=
  (claim_C9_get_block_node_fresh emptyFlowGraph (some 5) (some 5)).2.2

theorem string_empty_append (s : String) : "" ++ s = s := rfl

theorem str_concat_cons (a : String) (l : List String) :
    str_concat (a :: l) = a ++ str_concat l := rfl

/-- A guarded per-element emission (empty string when the guard yields
nothing) equals mapping the statement over the `filterMap` of the guard. -/
theorem str_concat_guard (f : Nat → Option (Nat × Nat)) (stmt : Nat × Nat → String) :
    ∀ bbs : List Nat,
    str_concat (bbs.map (fun bb =>
      match f bb with
      | some e => stmt e
      | none => "")) =
    str_concat ((bbs.filterMap f).map stmt) := by
  intro bbs
  induction bbs with
  | nil => rfl
  | cons bb bbs ih =>
      simp only [List.map_cons, List.filterMap_cons]
      cases hf : f bb with
      | none =>
          simp only [str_concat_cons, string_empty_append]
          exact ih
      | some e =>
          simp only [List.map_cons, str_concat_cons]
          rw [ih]

/-- The guarded per-block `idom` emission equals mapping the statement
over the filtered edge-pair list. -/
theorem str_concat_guard_idom (rel : DomRel) (bbs : List Nat) :
    str_concat (bbs.map (fun bb =>
      match rel.immediate_dominator bb with
      | some d => if d = bb then "" else idom_edge_stmt (d, bb)
      | none => "")) =
    str_concat ((idom_edge_pairs rel bbs).map idom_edge_stmt) := by
  have hfun : (fun bb =>
      match rel.immediate_dominator bb with
      | some d => if d = bb then "" else idom_edge_stmt (d, bb)
      | none => "") =
    (fun bb =>
      match (match rel.immediate_dominator bb with
        | some d => if d = bb then none else some (d, bb)
        | none => none) with
      | some e => idom_edge_stmt e
      | none => "") := by
    funext bb
    cases rel.immediate_dominator bb with
    | none => rfl
    | some d =>
        by_cases hd : d = bb
        · simp [hd]
        · simp [hd]
  rw [hfun]
  simp only [idom_edge_pairs]
  exact str_concat_guard (fun bb =>
    match rel.immediate_dominator bb with
    | some d => if d = bb then none else some (d, bb)
    | none => none) idom_edge_stmt bbs

/-- The guarded per-block `ipdom` emission equals mapping the statement
over the filtered edge-pair list. -/
theorem str_concat_guard_ipdom (rel : DomRel) (bbs : List Nat) :
    str_concat (bbs.map (fun bb =>
      match rel.immediate_post_dominator bb with
      | some d => if d = bb then "" else ipdom_edge_stmt (bb, d)
      | none => "")) =
    str_concat ((ipdom_edge_pairs rel bbs).map ipdom_edge_stmt) := by
  have hfun : (fun bb =>
      match rel.immediate_post_dominator bb with
      | some d => if d = bb then "" else ipdom_edge_stmt (bb, d)
      | none => "") =
    (fun bb =>
      match (match rel.immediate_post_dominator bb with
        | some d => if d = bb then none else some (bb, d)
        | none => none) with
      | some e => ipdom_edge_stmt e
      | none => "") := by
    funext bb
    cases rel.immediate_post_dominator bb with
    | none => rfl
    | some d =>
        by_cases hd : d = bb
        · simp [hd]
        · simp [hd]
  rw [hfun]
  simp only [ipdom_edge_pairs]
  exact str_concat_guard (fun bb =>
    match rel.immediate_post_dominator bb with
    | some d => if d = bb then none else some (bb, d)
    | none => none) ipdom_edge_stmt bbs

theorem idom_edge_pairs_no_self (rel : DomRel) (bbs : List Nat) :
    ∀ e ∈ idom_edge_pairs rel bbs, e.1 ≠ e.2 := by
  intro e he
  simp only [idom_edge_pairs, List.mem_filterMap] at he
  obtain ⟨bb, _, hbb⟩ := he
  split at hbb
  · split at hbb
    · exact Option.noConfusion hbb
    · rename_i hd
      injection hbb with h
      rw [← h]
      exact hd
  · exact Option.noConfusion hbb

theorem ipdom_edge_pairs_no_self (rel : DomRel) (bbs : List Nat) :
    ∀ e ∈ ipdom_edge_pairs rel bbs, e.1 ≠ e.2 := by
  intro e he
  simp only [ipdom_edge_pairs, List.mem_filterMap] at he
  obtain ⟨bb, _, hbb⟩ := he
  split at hbb
  · split at hbb
    · exact Option.noConfusion hbb
    · rename_i hd
      injection hbb with h
      rw [← h]
      intro hcontra
      exact hd hcontra.symm
  · exact Option.noConfusion hbb

/-- C10: the immediate-dominator and immediate-post-dominator map exports
emit exactly one edge statement per block whose immediate
(post-)dominator exists and differs from the block itself, so no emitted
edge is a self-loop from a block to itself. -/
theorem claim_C10_no_self_loops (rel : DomRel) (bv : BinaryView) (addr : Nat)
    (bbs : List Nat) (h : bv.get_function_at addr = some bbs) :
    generate_immediate_dominator_mermaid rel bv addr =
      "```mermaid\n" ++ ("graph TD;\n" ++ mermaid_decls bbs ++
        str_concat ((idom_edge_pairs rel bbs).map idom_edge_stmt)) ++ "\n```" ∧
    generate_immediate_post_dominator_mermaid rel bv addr =
      "```mermaid\n" ++ ("graph TD;\n" ++ mermaid_decls bbs ++
        str_concat ((ipdom_edge_pairs rel bbs).map ipdom_edge_stmt)) ++ "\n```" ∧
    (∀ e ∈ idom_edge_pairs rel bbs, e.1 ≠ e.2) ∧
    (∀ e ∈ ipdom_edge_pairs rel bbs, e.1 ≠ e.2) := by
  refine ⟨?_, ?_, idom_edge_pairs_no_self rel bbs, ipdom_edge_pairs_no_self rel bbs⟩
  · simp only [generate_immediate_dominator_mermaid, h, str_concat_guard_idom]
  · simp only [generate_immediate_post_dominator_mermaid, h, str_concat_guard_ipdom]

/-- C10 witness: the immediate-dominator export for the two-block function
of `bvW` under `trivialRel` consists of declarations and the (self-loop
free) `idom` edge statements. -/
theorem claim_C10_witness :
    generate_immediate_dominator_mermaid trivialRel bvW 7 =
      "```mermaid\n" ++ ("graph TD;\n" ++ mermaid_decls [0, 1] ++
        str_concat ((idom_edge_pairs trivialRel [0, 1]).map idom_edge_stmt)) ++ "\n```" :=
  (claim_C10_no_self_loops trivialRel bvW 7 [0, 1] rfl).1
